import Mathlib

/-!
Shallow embedding of `src/main.rs` of the `wilmerfh-compression` repository:
a byte-stream compressor built on a frequency-ranked chain-shaped prefix code.

Modelling conventions:
* bytes are `Nat` (value range 0–255 where produced by the code; `as u8`
  casts are `% 256`);
* a Rust panic (out-of-bounds index / slice, `expect`, usize underflow in a
  debug build) is `Option.none`; code that cannot panic keeps its plain type;
* `Vec<T>` is `List T`, bits (`bool`) are `Bool`;
* the `HashMap` in `build_map` is an association list; all call sites feed it
  distinct keys (the rank order is duplicate-free), where the two agree;
* the `HashMap` key iteration order in `count_frequencies` is unspecified in
  Rust; we fix the order produced by `List.dedup`.  The subsequent
  `sort_by(|a, b| freq[b].cmp(&freq[a]))` (a stable descending sort by count)
  is `List.mergeSort` with the matching comparator.
-/

namespace Compression

mutual

/-- `enum Node { Leaf(u8), Tree(Box<HuffmanTree>) }`. -/
inductive Node where
  | Leaf : Nat → Node
  | Tree : HuffmanTree → Node

/-- `struct HuffmanTree { left: u8, right: Node }`. -/
inductive HuffmanTree where
  | mk : Nat → Node → HuffmanTree

end

/-- Field accessor for `HuffmanTree.left`. -/
def HuffmanTree.left : HuffmanTree → Nat
  | .mk l _ => l

/-- Field accessor for `HuffmanTree.right`. -/
def HuffmanTree.right : HuffmanTree → Node
  | .mk _ r => r

/-- `struct Encoded { tree: Vec<u8>, bytes: Vec<u8>, padding: u8 }`. -/
structure Encoded where
  tree : List Nat
  bytes : List Nat
  padding : Nat

/-- The loop body of `Encoded::from_bits`: `byte |= 1 << (7 - i)` for every
set bit of the chunk, the fold written as a right-nested `|||` with start
index `i` (bitwise or is associative with unit `0`). -/
def bitsToByte : Nat → List Bool → Nat
  | _, [] => 0
  | i, b :: rest => (if b then 1 <<< (7 - i) else 0) ||| bitsToByte (i + 1) rest

/-- `bits.chunks(8)` from `Encoded::from_bits`. -/
def chunks8 : List Bool → List (List Bool)
  | [] => []
  | b :: rest => ((b :: rest).take 8) :: chunks8 ((b :: rest).drop 8)
  termination_by bits => bits.length
  decreasing_by simp [List.length_drop]; omega

/-- `Encoded::from_bits(bits, tree)`. -/
def Encoded.from_bits (bits : List Bool) (tree : List Nat) : Encoded :=
  { tree := tree
    bytes := (chunks8 bits).map (bitsToByte 0)
    padding := if bits.length % 8 = 0 then 0 else 8 - bits.length % 8 }

/-- `Encoded::to_bytes`: `[padding] ++ tree ++ bytes`. -/
def Encoded.to_bytes (e : Encoded) : List Nat :=
  e.padding :: e.tree ++ e.bytes

/-- `Encoded::from_bytes`.  `data[0]` and `data[1]` panic when the buffer is
too short, and the slices `data[1..2 + tree_len]` / `data[2 + tree_len..]`
panic when `2 + tree_len` exceeds the buffer length; those panics are `none`. -/
def Encoded.from_bytes (data : List Nat) : Option Encoded :=
  match data with
  | [] => none
  | padding :: rest =>
    match rest with
    | [] => none
    | treeLen :: _ =>
      if 2 + treeLen ≤ data.length then
        some { tree := (data.drop 1).take (1 + treeLen)
               bytes := data.drop (2 + treeLen)
               padding := padding }
      else none

/-- The bit extracted by the decode loop:
`(self.bytes[byte_idx] >> bit_idx) & 1 == 1` with `byte_idx = i / 8` and
`bit_idx = 7 - (i % 8)`.  Every caller keeps `i / 8` in range, so the `getD`
default is never read. -/
def Encoded.bitAt (bytes : List Nat) (i : Nat) : Bool :=
  decide ((bytes.getD (i / 8) 0 >>> (7 - i % 8)) &&& 1 = 1)

/-- The decode loop of `Encoded::decode`, recursion on the number of bits
still to read (`fuel` = `total_bits - i`).  A `0` bit emits the current
level's `left` and resets to the root; a `1` bit either emits the terminal
right leaf (and resets) or descends. -/
def Encoded.walk (root : HuffmanTree) (bytes : List Nat) :
    HuffmanTree → Nat → Nat → List Nat
  | _, _, 0 => []
  | current, i, fuel + 1 =>
    if Encoded.bitAt bytes i = false then
      current.left :: Encoded.walk root bytes root (i + 1) fuel
    else
      match current.right with
      | Node.Leaf b => b :: Encoded.walk root bytes root (i + 1) fuel
      | Node.Tree t => Encoded.walk root bytes t (i + 1) fuel

/-- `HuffmanTree::from_sorted`.  A list of length 2 is the terminal level;
otherwise the head is this level's `left` and the tail builds the nested
tree.  On a list of length `< 2` the Rust code indexes `bytes[0]` out of
bounds (directly for `[]`, after one recursive step for `[a]`): `none`. -/
def HuffmanTree.from_sorted : List Nat → Option HuffmanTree
  | [a, b] => some (.mk a (.Leaf b))
  | [] => none
  | a :: rest =>
    match HuffmanTree.from_sorted rest with
    | some t => some (.mk a (.Tree t))
    | none => none

/-- `HuffmanTree::collect_leaves` (the `out` accumulator made explicit as the
returned list, same push order). -/
def HuffmanTree.collect_leaves : HuffmanTree → List Nat
  | .mk l (.Leaf b) => [l, b]
  | .mk l (.Tree t) => l :: t.collect_leaves

/-- `HuffmanTree::serialize`: leaf count (`as u8`, hence `% 256`) followed by
the leaves. -/
def HuffmanTree.serialize (t : HuffmanTree) : List Nat :=
  (t.collect_leaves.length % 256) :: t.collect_leaves

/-- The loop of `HuffmanTree::build_map` with the mutable `code` vector made
an explicit accumulated prefix: at each level insert `left ↦ code ++ [0]`,
then continue (or finish on the terminal leaf) with `code ++ [1]`. -/
def HuffmanTree.build_map_aux : HuffmanTree → List Bool → List (Nat × List Bool)
  | .mk l (.Leaf b), code => [(l, code ++ [false]), (b, code ++ [true])]
  | .mk l (.Tree t), code => (l, code ++ [false]) :: t.build_map_aux (code ++ [true])

/-- `HuffmanTree::build_map` (the map starts from the empty code). -/
def HuffmanTree.build_map (t : HuffmanTree) : List (Nat × List Bool) :=
  t.build_map_aux []

/-- The encoding loop of `HuffmanTree::encode`: for each data byte look up
its code and append it; `map.get(&b).expect("byte not in tree")` panics when
the byte is absent, hence `none`. -/
def collectBits (map : List (Nat × List Bool)) : List Nat → Option (List Bool)
  | [] => some []
  | b :: rest =>
    match map.lookup b with
    | none => none
    | some code => (collectBits map rest).map (fun bs => code ++ bs)

/-- `HuffmanTree::encode`. -/
def HuffmanTree.encode (t : HuffmanTree) (data : List Nat) : Option Encoded :=
  match collectBits t.build_map data with
  | none => none
  | some bits => some (Encoded.from_bits bits t.serialize)

/-- `Encoded::decode`.  `self.tree[1..]` rebuilds the tree from the leaf
bytes (the slice panic on an empty `tree` and the `from_sorted` panic both
surface as `none`); `total_bits = bytes.len() * 8 - padding` is a `usize`
subtraction, which panics on underflow. -/
def Encoded.decode (e : Encoded) : Option (List Nat) :=
  match HuffmanTree.from_sorted (e.tree.drop 1) with
  | none => none
  | some tree =>
    if e.padding ≤ e.bytes.length * 8 then
      some (Encoded.walk tree e.bytes tree 0 (e.bytes.length * 8 - e.padding))
    else none

/-- `count_frequencies`: distinct bytes (map keys, here in `dedup` order)
sorted by descending occurrence count (`sort_by(|a, b| freq[b].cmp(&freq[a]))`,
a stable sort). -/
def count_frequencies (bytes : List Nat) : List Nat :=
  (bytes.dedup).mergeSort (fun a b => bytes.count b ≤ bytes.count a)

/-- Top-level `encode`. -/
def encode (data : List Nat) : Option (List Nat) :=
  match HuffmanTree.from_sorted (count_frequencies data) with
  | none => none
  | some tree =>
    match tree.encode data with
    | none => none
    | some e => some e.to_bytes

/-- Top-level `decode`. -/
def decode (data : List Nat) : Option (List Nat) :=
  match Encoded.from_bytes data with
  | none => none
  | some e => e.decode

/-! ## Structural lemmas about the chain tree -/

theorem from_sorted_nil : HuffmanTree.from_sorted [] = none := rfl

theorem from_sorted_single (a : Nat) : HuffmanTree.from_sorted [a] = none := rfl

theorem from_sorted_pair (a b : Nat) :
    HuffmanTree.from_sorted [a, b] = some (.mk a (.Leaf b)) := rfl

theorem from_sorted_cons (a b c : Nat) (r : List Nat) :
    HuffmanTree.from_sorted (a :: b :: c :: r)
      = match HuffmanTree.from_sorted (b :: c :: r) with
        | some t => some (.mk a (.Tree t))
        | none => none := rfl

/-- `from_sorted` succeeds exactly on lists of length at least 2. -/
theorem from_sorted_eq_none_iff : ∀ l : List Nat,
    HuffmanTree.from_sorted l = none ↔ l.length < 2
  | [] => by simp [from_sorted_nil]
  | [a] => by simp [from_sorted_single]
  | [a, b] => by simp [from_sorted_pair]
  | a :: b :: c :: r => by
    rw [from_sorted_cons]
    rcases h : HuffmanTree.from_sorted (b :: c :: r) with _ | t
    · rw [from_sorted_eq_none_iff] at h
      exact absurd h (by simp)
    · simp

/-- The leaves of the tree built from a list are that list. -/
theorem from_sorted_collect_leaves : ∀ (l : List Nat) (t : HuffmanTree),
    HuffmanTree.from_sorted l = some t → t.collect_leaves = l
  | [], t => by simp [from_sorted_nil]
  | [a], t => by simp [from_sorted_single]
  | [a, b], t => by
    rw [from_sorted_pair]
    rintro ⟨rfl⟩
    rfl
  | a :: b :: c :: r, t => by
    rw [from_sorted_cons]
    rcases h : HuffmanTree.from_sorted (b :: c :: r) with _ | t'
    · simp
    · rintro ⟨rfl⟩
      have := from_sorted_collect_leaves (b :: c :: r) t' h
      simp [HuffmanTree.collect_leaves, this]

/-- Helper: on a list of length ≥ 2, `from_sorted` succeeds with leaves the
given list. -/
theorem from_sorted_some (l : List Nat) (h : 2 ≤ l.length) :
    ∃ t, HuffmanTree.from_sorted l = some t ∧ t.collect_leaves = l := by
  rcases hfs : HuffmanTree.from_sorted l with _ | t
  · rw [from_sorted_eq_none_iff] at hfs
    omega
  · exact ⟨t, rfl, from_sorted_collect_leaves l t hfs⟩

/-! ## Lemmas about the derived code table -/

/-- The keys of the code table are exactly the leaves, in order. -/
theorem build_map_aux_keys : ∀ (t : HuffmanTree) (pfx : List Bool),
    (t.build_map_aux pfx).map Prod.fst = t.collect_leaves
  | .mk l (.Leaf b), pfx => by
    simp [HuffmanTree.build_map_aux, HuffmanTree.collect_leaves]
  | .mk l (.Tree t), pfx => by
    simp [HuffmanTree.build_map_aux, HuffmanTree.collect_leaves,
      build_map_aux_keys t]

/-- `lookup` across a value-only map. -/
theorem lookup_map_value {β γ : Type} (f : β → γ) :
    ∀ (l : List (Nat × β)) (a : Nat),
      (l.map (fun p => (p.1, f p.2))).lookup a = (l.lookup a).map f
  | [], a => rfl
  | (k, v) :: rest, a => by
    by_cases h : a = k
    · subst h
      simp [List.lookup]
    · have hb : (a == k) = false := by simpa using h
      simp [List.lookup, hb, lookup_map_value f rest a]

/-- The accumulated prefix distributes over the whole code table. -/
theorem build_map_aux_shift : ∀ (t : HuffmanTree) (pfx : List Bool),
    t.build_map_aux pfx = (t.build_map_aux []).map (fun p => (p.1, pfx ++ p.2))
  | .mk l (.Leaf b), pfx => by
    simp [HuffmanTree.build_map_aux]
  | .mk l (.Tree t), pfx => by
    rw [HuffmanTree.build_map_aux, HuffmanTree.build_map_aux]
    simp only [List.nil_append]
    rw [build_map_aux_shift t (pfx ++ [true]), build_map_aux_shift t [true]]
    simp [List.map_map, Function.comp]

/-- A present key has a code: the table's keys are the leaves. -/
theorem lookup_build_map_isSome (t : HuffmanTree) (b : Nat)
    (hb : b ∈ t.collect_leaves) : ((t.build_map).lookup b).isSome := by
  rw [List.lookup_isSome_iff]
  rw [← build_map_aux_keys t []] at hb
  rcases List.mem_map.mp hb with ⟨p, hp, hfst⟩
  exact ⟨p, hp, by simp [hfst]⟩

/-- A list element at an in-range default-index is a member. -/
theorem getD_mem_of_lt (l : List Nat) (j : Nat) (hj : j < l.length) :
    l.getD j 0 ∈ l := by
  rw [List.getD_eq_getElem _ _ hj]
  exact List.getElem_mem hj

/-- Code of the symbol of 0-based rank `j ≤ n − 2`: `j` one-bits then a
zero-bit. -/
theorem lookup_build_map_idx : ∀ (l : List Nat) (t : HuffmanTree) (j : Nat),
    l.Nodup → HuffmanTree.from_sorted l = some t → j + 2 ≤ l.length →
    (t.build_map).lookup (l.getD j 0) = some (List.replicate j true ++ [false])
  | [], t, j => by simp [from_sorted_nil]
  | [a], t, j => by simp [from_sorted_single]
  | [a, b], t, j => by
    intro hnd ht hj
    rw [from_sorted_pair] at ht
    cases ht
    have hj0 : j = 0 := by simp at hj; omega
    subst hj0
    simp [HuffmanTree.build_map, HuffmanTree.build_map_aux]
  | a :: b :: c :: r, t, j => by
    intro hnd ht hj
    rw [from_sorted_cons] at ht
    rcases hrest : HuffmanTree.from_sorted (b :: c :: r) with _ | t'
    · rw [hrest] at ht
      exact absurd ht (by simp)
    · rw [hrest] at ht
      cases ht
      rcases j with _ | j'
      · simp [HuffmanTree.build_map, HuffmanTree.build_map_aux]
      · have hlen : j' + 2 ≤ (b :: c :: r).length := by
          simp at hj ⊢
          omega
        have hmem : (b :: c :: r).getD j' 0 ∈ b :: c :: r :=
          getD_mem_of_lt _ _ (by omega)
        have hne : (b :: c :: r).getD j' 0 ≠ a := by
          intro h
          exact (List.nodup_cons.mp hnd).1 (h ▸ hmem)
        have hbeq : ((b :: c :: r).getD j' 0 == a) = false := by
          simpa using hne
        have hrec := lookup_build_map_idx (b :: c :: r) t' j'
          (List.nodup_cons.mp hnd).2 hrest hlen
        rw [HuffmanTree.build_map] at hrec
        rw [HuffmanTree.build_map, HuffmanTree.build_map_aux]
        simp only [List.nil_append, List.getD_cons_succ]
        rw [List.lookup_cons]
        simp only [hbeq]
        rw [build_map_aux_shift t' [true], lookup_map_value, hrec]
        simp [List.replicate_succ]

/-- Code of the last-ranked symbol: `n − 1` one-bits. -/
theorem lookup_build_map_last : ∀ (l : List Nat) (t : HuffmanTree),
    l.Nodup → HuffmanTree.from_sorted l = some t →
    (t.build_map).lookup (l.getD (l.length - 1) 0)
      = some (List.replicate (l.length - 1) true)
  | [], t => by simp [from_sorted_nil]
  | [a], t => by simp [from_sorted_single]
  | [a, b], t => by
    intro hnd ht
    rw [from_sorted_pair] at ht
    cases ht
    have hab : a ≠ b := by
      have := (List.nodup_cons.mp hnd).1
      simpa using this
    have hne : (b == a) = false := by
      simpa using Ne.symm hab
    simp [HuffmanTree.build_map, HuffmanTree.build_map_aux, List.lookup, hne]
  | a :: b :: c :: r, t => by
    intro hnd ht
    rw [from_sorted_cons] at ht
    rcases hrest : HuffmanTree.from_sorted (b :: c :: r) with _ | t'
    · rw [hrest] at ht
      exact absurd ht (by simp)
    · rw [hrest] at ht
      cases ht
      have hmem : (b :: c :: r).getD ((b :: c :: r).length - 1) 0 ∈ b :: c :: r :=
        getD_mem_of_lt _ _ (by simp)
      have hne : (b :: c :: r).getD ((b :: c :: r).length - 1) 0 ≠ a := by
        intro h
        exact (List.nodup_cons.mp hnd).1 (h ▸ hmem)
      have hbeq : ((b :: c :: r).getD ((b :: c :: r).length - 1) 0 == a) = false := by
        simpa using hne
      have hidx : (a :: b :: c :: r).length - 1 = ((b :: c :: r).length - 1) + 1 := by
        simp
      have hrec := lookup_build_map_last (b :: c :: r) t'
        (List.nodup_cons.mp hnd).2 hrest
      rw [HuffmanTree.build_map] at hrec
      rw [HuffmanTree.build_map, HuffmanTree.build_map_aux]
      simp only [List.nil_append, hidx, List.getD_cons_succ]
      rw [List.lookup_cons]
      simp only [hbeq]
      rw [build_map_aux_shift t' [true], lookup_map_value, hrec]
      have hlen : (b :: c :: r).length - 1 + 1 = (b :: c :: r).length := by simp
      rw [← hlen, List.replicate_succ]
      simp

/-! ## The decode walk inverts the code table -/

theorem walk_zero (root : HuffmanTree) (bytes : List Nat) (cur : HuffmanTree)
    (i : Nat) : Encoded.walk root bytes cur i 0 = [] := rfl

theorem walk_succ_false (root : HuffmanTree) (bytes : List Nat)
    (cur : HuffmanTree) (i fuel : Nat) (h : Encoded.bitAt bytes i = false) :
    Encoded.walk root bytes cur i (fuel + 1)
      = cur.left :: Encoded.walk root bytes root (i + 1) fuel := by
  rw [Encoded.walk, h]
  simp

theorem walk_succ_true_leaf (root : HuffmanTree) (bytes : List Nat)
    (cur : HuffmanTree) (b : Nat) (i fuel : Nat)
    (h : Encoded.bitAt bytes i = true) (hr : cur.right = Node.Leaf b) :
    Encoded.walk root bytes cur i (fuel + 1)
      = b :: Encoded.walk root bytes root (i + 1) fuel := by
  rw [Encoded.walk, h, hr]
  simp

theorem walk_succ_true_tree (root : HuffmanTree) (bytes : List Nat)
    (cur t : HuffmanTree) (i fuel : Nat)
    (h : Encoded.bitAt bytes i = true) (hr : cur.right = Node.Tree t) :
    Encoded.walk root bytes cur i (fuel + 1)
      = Encoded.walk root bytes t (i + 1) fuel := by
  rw [Encoded.walk, h, hr]
  simp

/-- Walking one codeword of the table from the tree it was derived from
emits exactly the encoded symbol and ends back at the root. -/
theorem walk_code : ∀ (l : List Nat) (t : HuffmanTree) (b : Nat) (c : List Bool),
    l.Nodup → HuffmanTree.from_sorted l = some t →
    (t.build_map).lookup b = some c →
    ∀ (root : HuffmanTree) (bytes : List Nat) (i fuel : Nat),
      (∀ d, d < c.length → Encoded.bitAt bytes (i + d) = c.getD d false) →
      Encoded.walk root bytes t i (c.length + fuel)
        = b :: Encoded.walk root bytes root (i + c.length) fuel
  | [], t, b, c => by simp [from_sorted_nil]
  | [a], t, b, c => by simp [from_sorted_single]
  | [a, a'], t, b, c => by
    intro hnd ht hl root bytes i fuel hbits
    rw [from_sorted_pair] at ht
    cases ht
    rw [HuffmanTree.build_map, HuffmanTree.build_map_aux] at hl
    simp only [List.nil_append] at hl
    by_cases hba : b = a
    · subst hba
      rw [List.lookup_cons_self] at hl
      cases hl
      have hbit := hbits 0 (by simp)
      simp only [Nat.add_zero, List.getD_cons_zero] at hbit
      rw [show ([false] : List Bool).length + fuel = fuel + 1 by simp; omega,
        walk_succ_false root bytes _ i fuel hbit]
      simp [HuffmanTree.left]
    · have hbeq : (b == a) = false := by simpa using hba
      rw [List.lookup_cons] at hl
      simp only [hbeq] at hl
      rw [List.lookup_cons] at hl
      rcases hba' : (b == a') with _ | _
      · simp [hba'] at hl
      · simp only [hba'] at hl
        cases hl
        have hb : b = a' := by simpa using hba'
        subst hb
        have hbit := hbits 0 (by simp)
        simp only [Nat.add_zero, List.getD_cons_zero] at hbit
        rw [show ([true] : List Bool).length + fuel = fuel + 1 by simp; omega,
          walk_succ_true_leaf root bytes (HuffmanTree.mk a (Node.Leaf b)) b i fuel hbit rfl]
        simp
  | a :: a' :: a'' :: r, t, b, c => by
    intro hnd ht hl root bytes i fuel hbits
    rw [from_sorted_cons] at ht
    rcases hrest : HuffmanTree.from_sorted (a' :: a'' :: r) with _ | t'
    · rw [hrest] at ht
      exact absurd ht (by simp)
    · rw [hrest] at ht
      cases ht
      rw [HuffmanTree.build_map, HuffmanTree.build_map_aux] at hl
      simp only [List.nil_append] at hl
      by_cases hba : b = a
      · subst hba
        rw [List.lookup_cons_self] at hl
        cases hl
        have hbit := hbits 0 (by simp)
        simp only [Nat.add_zero, List.getD_cons_zero] at hbit
        rw [show ([false] : List Bool).length + fuel = fuel + 1 by simp; omega,
          walk_succ_false root bytes _ i fuel hbit]
        simp [HuffmanTree.left]
      · have hbeq : (b == a) = false := by simpa using hba
        rw [List.lookup_cons] at hl
        simp only [hbeq] at hl
        rw [build_map_aux_shift t' [true], lookup_map_value] at hl
        rcases hl' : List.lookup b (t'.build_map_aux []) with _ | c'
        · rw [hl'] at hl
          simp at hl
        · rw [hl'] at hl
          simp only [Option.map_some'] at hl
          cases hl
          have hl'' : (t'.build_map).lookup b = some c' := hl'
          have hbit := hbits 0 (by simp)
          simp only [Nat.add_zero] at hbit
          have hc : ([true] ++ c' : List Bool).length + fuel
              = (c'.length + fuel) + 1 := by
            simp
            omega
          rw [hc, walk_succ_true_tree root bytes (HuffmanTree.mk a (Node.Tree t')) t' i
            (c'.length + fuel) (by simpa using hbit) rfl]
          have hrec := walk_code (a' :: a'' :: r) t' b c'
            (List.nodup_cons.mp hnd).2 hrest hl'' root bytes (i + 1) fuel
            (by
              intro d hd
              have := hbits (d + 1) (by simp; omega)
              simp only [List.getD_cons_succ] at this
              rw [show i + (d + 1) = i + 1 + d by omega] at this
              simpa using this)
          rw [hrec]
          have : i + 1 + c'.length = i + ([true] ++ c').length := by
            simp
            omega
          rw [this]

/-- `collectBits` succeeds when every message byte has a code. -/
theorem collectBits_exists (map : List (Nat × List Bool)) :
    ∀ m : List Nat, (∀ b ∈ m, ((map.lookup b).isSome : Bool)) →
      ∃ bits, collectBits map m = some bits
  | [] => fun _ => ⟨[], rfl⟩
  | b :: m => by
    intro h
    have hb := h b (by simp)
    rcases hlb : map.lookup b with _ | code
    · rw [hlb] at hb
      simp at hb
    · rcases collectBits_exists map m (fun x hx => h x (by simp [hx])) with ⟨bits, hbits⟩
      exact ⟨code ++ bits, by rw [collectBits, hlb, hbits]; simp⟩

/-- Walking the concatenated codewords of a message emits the message. -/
theorem walk_message (l : List Nat) (t : HuffmanTree)
    (hnd : l.Nodup) (ht : HuffmanTree.from_sorted l = some t) :
    ∀ (m : List Nat) (bits : List Bool),
      collectBits t.build_map m = some bits →
      ∀ (bytes : List Nat) (i fuel : Nat),
        (∀ d, d < bits.length → Encoded.bitAt bytes (i + d) = bits.getD d false) →
        Encoded.walk t bytes t i (bits.length + fuel)
          = m ++ Encoded.walk t bytes t (i + bits.length) fuel
  | [], bits => by
    intro hcb bytes i fuel _
    rw [collectBits] at hcb
    cases hcb
    simp
  | b :: m, bits => by
    intro hcb bytes i fuel hbits
    rw [collectBits] at hcb
    rcases hlb : (t.build_map).lookup b with _ | code
    · rw [hlb] at hcb
      simp at hcb
    · rw [hlb] at hcb
      rcases hcm : collectBits t.build_map m with _ | bits'
      · rw [hcm] at hcb
        simp at hcb
      · rw [hcm] at hcb
        simp only [Option.map_some'] at hcb
        cases hcb
        have harr : (code ++ bits' : List Bool).length + fuel
            = code.length + (bits'.length + fuel) := by
          simp
          omega
        rw [harr]
        rw [walk_code l t b code hnd ht hlb t bytes i (bits'.length + fuel)
          (by
            intro d hd
            have := hbits d (by simp; omega)
            rwa [List.getD_append _ _ _ _ hd] at this)]
        rw [walk_message l t hnd ht m bits' hcm bytes (i + code.length) fuel
          (by
            intro d hd
            have := hbits (code.length + d) (by simp; omega)
            rw [List.getD_append_right _ _ _ _ (by omega)] at this
            simp only [Nat.add_sub_cancel_left] at this
            rwa [show i + (code.length + d) = i + code.length + d by omega] at this)]
        have : i + code.length + bits'.length = i + (code ++ bits').length := by
          simp
          omega
        rw [this]
        simp

/-! ## Bit packing -/

theorem getD_take_eq (l : List Bool) (n i : Nat) (h : i < n) :
    (l.take n).getD i false = l.getD i false := by
  by_cases hi : i < l.length
  · have h1 : i < (l.take n).length := by
      simp [List.length_take]
      omega
    rw [List.getD_eq_getElem _ _ h1, List.getD_eq_getElem _ _ hi]
    simp
  · rw [List.getD_eq_default _ _ (by simp [List.length_take]; omega),
      List.getD_eq_default _ _ (by omega)]

theorem getD_drop_eq (l : List Bool) (n i : Nat) :
    (l.drop n).getD i false = l.getD (n + i) false := by
  by_cases hi : n + i < l.length
  · have h1 : i < (l.drop n).length := by
      simp [List.length_drop]
      omega
    rw [List.getD_eq_getElem _ _ h1, List.getD_eq_getElem _ _ hi]
    exact (List.getElem_drop' l hi).symm
  · rw [List.getD_eq_default _ _ (by simp [List.length_drop]; omega),
      List.getD_eq_default _ _ (by omega)]

/-- `bitsToByte` sets no bit outside the positions `7 - (i + j)` of its
chunk. -/
theorem bitsToByte_testBit_out : ∀ (chunk : List Bool) (i k : Nat),
    i + chunk.length ≤ 8 → (∀ j, j < chunk.length → k ≠ 7 - (i + j)) →
    (bitsToByte i chunk).testBit k = false
  | [], i, k => by
    intro _ _
    simp [bitsToByte]
  | b :: rest, i, k => by
    intro hle hk
    simp only [List.length_cons] at hle
    rw [bitsToByte, Nat.testBit_or]
    have h1 : (if b then 1 <<< (7 - i) else 0).testBit k = false := by
      rcases b with _ | _
      · simp
      · have hk0 := hk 0 (by simp)
        simp only [Nat.add_zero] at hk0
        simp only [if_pos]
        rw [Nat.shiftLeft_eq, one_mul, Nat.testBit_two_pow]
        simp [Ne.symm hk0]
    have h2 : (bitsToByte (i + 1) rest).testBit k = false := by
      apply bitsToByte_testBit_out rest (i + 1) k (by omega)
      intro j hj
      have := hk (j + 1) (by simp; omega)
      rw [show i + (j + 1) = i + 1 + j by omega] at this
      exact this
    rw [h1, h2]
    simp

/-- Bit `7 - (i + j)` of `bitsToByte i chunk` is chunk bit `j` (MSB-first). -/
theorem bitsToByte_testBit_in : ∀ (chunk : List Bool) (i j : Nat),
    i + chunk.length ≤ 8 → j < chunk.length →
    (bitsToByte i chunk).testBit (7 - (i + j)) = chunk.getD j false
  | [], i, j => by
    intro _ h
    simp at h
  | b :: rest, i, j => by
    intro hle hj
    simp only [List.length_cons] at hle hj
    rw [bitsToByte, Nat.testBit_or]
    rcases j with _ | j'
    · have hrest : (bitsToByte (i + 1) rest).testBit (7 - (i + 0)) = false := by
        apply bitsToByte_testBit_out rest (i + 1) _ (by omega)
        intro j hjr
        omega
      rw [hrest]
      rcases b with _ | _
      · simp
      · simp only [if_pos]
        rw [Nat.shiftLeft_eq, one_mul, Nat.add_zero, Nat.testBit_two_pow]
        simp
    · have hfirst : (if b then 1 <<< (7 - i) else 0).testBit (7 - (i + (j' + 1))) = false := by
        rcases b with _ | _
        · simp
        · simp only [if_pos]
          rw [Nat.shiftLeft_eq, one_mul, Nat.testBit_two_pow]
          simp
          omega
      rw [hfirst]
      simp only [Bool.false_or]
      have hrec := bitsToByte_testBit_in rest (i + 1) j' (by omega) (by omega)
      rw [show i + (j' + 1) = i + 1 + j' by omega, hrec]
      simp

/-- The decode-loop bit test is `testBit` of the addressed byte. -/
theorem bitAt_eq_testBit (bytes : List Nat) (i : Nat) :
    Encoded.bitAt bytes i = (bytes.getD (i / 8) 0).testBit (7 - i % 8) := by
  simp [Encoded.bitAt, Nat.testBit_to_div_mod, Nat.and_one_is_mod,
    Nat.shiftRight_eq_div_pow]

theorem chunks8_cons (b : Bool) (rest : List Bool) :
    chunks8 (b :: rest) = ((b :: rest).take 8) :: chunks8 ((b :: rest).drop 8) := by
  rw [chunks8]

theorem chunks8_length : ∀ bits : List Bool,
    (chunks8 bits).length = (bits.length + 7) / 8
  | [] => by simp [chunks8]
  | b :: rest => by
    rw [chunks8_cons]
    simp only [List.length_cons]
    rw [chunks8_length ((b :: rest).drop 8)]
    simp only [List.length_drop, List.length_cons]
    omega
  termination_by bits => bits.length
  decreasing_by simp [List.length_drop]; omega

/-- Unpacking a packed bit sequence returns the original bits inside the
data range and `false` (the zero filler) beyond it, up to the byte
boundary. -/
theorem bitAt_pack : ∀ (bits : List Bool) (i : Nat),
    i < 8 * (chunks8 bits).length →
    Encoded.bitAt ((chunks8 bits).map (bitsToByte 0)) i = bits.getD i false
  | [], i => by simp [chunks8]
  | b :: rest, i => by
    intro hi
    rw [chunks8_cons] at hi ⊢
    rw [List.map_cons]
    by_cases h8 : i < 8
    · rw [bitAt_eq_testBit]
      have hdiv : i / 8 = 0 := Nat.div_eq_of_lt h8
      have hmod : i % 8 = i := Nat.mod_eq_of_lt h8
      rw [hdiv, hmod]
      simp only [List.getD_cons_zero]
      by_cases hlen : i < ((b :: rest).take 8).length
      · have hin := bitsToByte_testBit_in ((b :: rest).take 8) 0 i
          (by simp [List.length_take]) hlen
        simp only [Nat.zero_add] at hin
        rw [hin]
        exact getD_take_eq _ 8 i h8
      · simp only [List.length_take, List.length_cons] at hlen
        have hout := bitsToByte_testBit_out ((b :: rest).take 8) 0 (7 - i)
          (by simp [List.length_take])
          (by
            intro j hj
            simp only [List.length_take, List.length_cons] at hj
            simp only [Nat.zero_add]
            omega)
        rw [hout]
        rw [List.getD_eq_default _ _ (by simp; omega)]
    · have hstep : Encoded.bitAt
          (bitsToByte 0 ((b :: rest).take 8)
            :: (chunks8 ((b :: rest).drop 8)).map (bitsToByte 0)) i
          = Encoded.bitAt ((chunks8 ((b :: rest).drop 8)).map (bitsToByte 0))
              (i - 8) := by
        rw [bitAt_eq_testBit, bitAt_eq_testBit]
        have h1 : i / 8 = (i - 8) / 8 + 1 := by omega
        have h2 : i % 8 = (i - 8) % 8 := by omega
        rw [h1, h2]
        simp
      rw [hstep]
      rw [bitAt_pack ((b :: rest).drop 8) (i - 8)
        (by simp only [List.length_cons] at hi; omega)]
      rw [getD_drop_eq]
      congr 1
      omega
  termination_by bits => bits.length
  decreasing_by simp [List.length_drop]; omega

/-- `8 · (number of packed bytes) = number of bits + padding`. -/
theorem pack_total_bits (bits : List Bool) (tree : List Nat) :
    8 * (Encoded.from_bits bits tree).bytes.length
      = bits.length + (Encoded.from_bits bits tree).padding := by
  rw [Encoded.from_bits]
  simp only [List.length_map, chunks8_length]
  by_cases h : bits.length % 8 = 0 <;> simp [h] <;> omega

/-! ## Container assembly and parsing -/

/-- `from_bytes` on a buffer of at least two bytes, unfolded. -/
theorem from_bytes_cons (p c : Nat) (rest : List Nat) :
    Encoded.from_bytes (p :: c :: rest)
      = if 2 + c ≤ (p :: c :: rest).length then
          some ⟨((p :: c :: rest).drop 1).take (1 + c),
                (p :: c :: rest).drop (2 + c), p⟩
        else none := rfl

/-- Parsing inverts assembly whenever the serialized tree starts with a
count byte equal to the number of symbol bytes after it. -/
theorem from_bytes_to_bytes (p : Nat) (syms packed : List Nat) :
    Encoded.from_bytes (Encoded.to_bytes ⟨syms.length :: syms, packed, p⟩)
      = some ⟨syms.length :: syms, packed, p⟩ := by
  have hdata : Encoded.to_bytes ⟨syms.length :: syms, packed, p⟩
      = p :: syms.length :: (syms ++ packed) := rfl
  rw [hdata, from_bytes_cons]
  rw [if_pos (by simp only [List.length_cons, List.length_append]; omega)]
  have h1 : ((p :: syms.length :: (syms ++ packed)).drop 1).take (1 + syms.length)
      = syms.length :: syms := by
    rw [List.drop_one, List.tail_cons]
    rw [show 1 + syms.length = syms.length + 1 by omega, List.take_succ_cons,
      List.take_left]
  have h2 : (p :: syms.length :: (syms ++ packed)).drop (2 + syms.length)
      = packed := by
    rw [show 2 + syms.length = syms.length + 1 + 1 by omega]
    rw [List.drop_succ_cons, List.drop_succ_cons, List.drop_left]
  rw [h1, h2]

/-- A container whose count byte is `0` keeps only that byte as tree region
and parses the symbol bytes into the packed-data region. -/
theorem from_bytes_zero (p : Nat) (rest : List Nat) :
    Encoded.from_bytes (p :: 0 :: rest) = some ⟨[0], rest, p⟩ := by
  rw [from_bytes_cons]
  rw [if_pos (by simp)]
  rfl

/-- Decoding a container whose count byte is `0` fails: the tree is rebuilt
from no leaves. -/
theorem decode_zero_count (p : Nat) (rest : List Nat) :
    decode (p :: 0 :: rest) = none := by
  unfold decode
  rw [from_bytes_zero]
  rfl

/-! ## Frequency ranking -/

theorem count_frequencies_perm (data : List Nat) :
    (count_frequencies data).Perm data.dedup :=
  List.mergeSort_perm _ _

theorem count_frequencies_nodup (data : List Nat) :
    (count_frequencies data).Nodup :=
  ((count_frequencies_perm data).nodup_iff).mpr (List.nodup_dedup data)

theorem count_frequencies_length (data : List Nat) :
    (count_frequencies data).length = data.dedup.length :=
  (count_frequencies_perm data).length_eq

theorem mem_count_frequencies {data : List Nat} {b : Nat} (hb : b ∈ data) :
    b ∈ count_frequencies data :=
  ((count_frequencies_perm data).mem_iff).mpr (List.mem_dedup.mpr hb)

/-! ## The round trip -/

/-- Round trip for 2–255 distinct byte values. -/
theorem roundtrip_aux (data : List Nat)
    (h2 : 2 ≤ data.dedup.length) (h255 : data.dedup.length ≤ 255) :
    ∃ out, encode data = some out ∧ decode out = some data := by
  have hnd : (count_frequencies data).Nodup := count_frequencies_nodup data
  have hlen : (count_frequencies data).length = data.dedup.length :=
    count_frequencies_length data
  obtain ⟨t, ht, hcl⟩ := from_sorted_some (count_frequencies data) (by omega)
  have hmem : ∀ b ∈ data, (((t.build_map).lookup b).isSome : Bool) := by
    intro b hb
    exact lookup_build_map_isSome t b (hcl ▸ mem_count_frequencies hb)
  obtain ⟨bits, hbits⟩ := collectBits_exists t.build_map data hmem
  refine ⟨(Encoded.from_bits bits t.serialize).to_bytes, ?_, ?_⟩
  · unfold encode
    rw [ht]
    show (match t.encode data with
      | none => none
      | some e => some e.to_bytes)
        = some (Encoded.from_bits bits t.serialize).to_bytes
    unfold HuffmanTree.encode
    rw [hbits]
  · have hser : t.serialize
        = (count_frequencies data).length :: count_frequencies data := by
      rw [HuffmanTree.serialize, hcl, Nat.mod_eq_of_lt (by omega)]
    have hbytes : (Encoded.from_bits bits t.serialize).bytes
        = (chunks8 bits).map (bitsToByte 0) := by
      rw [Encoded.from_bits]
    have htotal : 8 * (Encoded.from_bits bits t.serialize).bytes.length
        = bits.length + (Encoded.from_bits bits t.serialize).padding :=
      pack_total_bits bits t.serialize
    have hfb : Encoded.from_bytes ((Encoded.from_bits bits t.serialize).to_bytes)
        = some (Encoded.from_bits bits t.serialize) := by
      have : Encoded.from_bits bits t.serialize
          = ⟨(count_frequencies data).length :: count_frequencies data,
             (Encoded.from_bits bits t.serialize).bytes,
             (Encoded.from_bits bits t.serialize).padding⟩ := by
        rw [← hser]
        rfl
      rw [this] at htotal ⊢
      exact from_bytes_to_bytes _ _ _
    have hdrop : (Encoded.from_bits bits t.serialize).tree.drop 1
        = count_frequencies data := by
      rw [show (Encoded.from_bits bits t.serialize).tree = t.serialize from rfl,
        hser]
      rfl
    unfold decode
    rw [hfb]
    show (Encoded.from_bits bits t.serialize).decode = some data
    unfold Encoded.decode
    rw [hdrop, ht]
    show (if (Encoded.from_bits bits t.serialize).padding
          ≤ (Encoded.from_bits bits t.serialize).bytes.length * 8 then
        some (Encoded.walk t (Encoded.from_bits bits t.serialize).bytes t 0
          ((Encoded.from_bits bits t.serialize).bytes.length * 8
            - (Encoded.from_bits bits t.serialize).padding))
      else none) = some data
    rw [if_pos (by omega)]
    have htb : (Encoded.from_bits bits t.serialize).bytes.length * 8
        - (Encoded.from_bits bits t.serialize).padding = bits.length := by
      omega
    rw [htb]
    have hwalk := walk_message (count_frequencies data) t hnd ht data bits hbits
      (Encoded.from_bits bits t.serialize).bytes 0 0
      (by
        intro d hd
        rw [Nat.zero_add, hbytes]
        apply bitAt_pack
        have hchunks : ((chunks8 bits).map (bitsToByte 0)).length
            = (chunks8 bits).length := List.length_map _ _
        rw [hbytes] at htotal
        omega)
    rw [Nat.add_zero] at hwalk
    rw [hwalk, Nat.zero_add, walk_zero]
    simp

/-- Any input with exactly 256 distinct byte values round-trips to a decode
failure: the count byte wraps to 0. -/
theorem roundtrip_256 (data : List Nat) (h : data.dedup.length = 256) :
    (encode data).bind decode = none := by
  have hlen : (count_frequencies data).length = data.dedup.length :=
    count_frequencies_length data
  obtain ⟨t, ht, hcl⟩ := from_sorted_some (count_frequencies data) (by omega)
  have hmem : ∀ b ∈ data, (((t.build_map).lookup b).isSome : Bool) := by
    intro b hb
    exact lookup_build_map_isSome t b (hcl ▸ mem_count_frequencies hb)
  obtain ⟨bits, hbits⟩ := collectBits_exists t.build_map data hmem
  have henc : encode data = some ((Encoded.from_bits bits t.serialize).to_bytes) := by
    unfold encode
    rw [ht]
    show (match t.encode data with
      | none => none
      | some e => some e.to_bytes)
        = some (Encoded.from_bits bits t.serialize).to_bytes
    unfold HuffmanTree.encode
    rw [hbits]
  have hser : t.serialize = 0 :: count_frequencies data := by
    rw [HuffmanTree.serialize, hcl, hlen, h]
  have hout : (Encoded.from_bits bits t.serialize).to_bytes
      = (Encoded.from_bits bits t.serialize).padding :: 0 ::
        (count_frequencies data ++ (Encoded.from_bits bits t.serialize).bytes) := by
    rw [Encoded.to_bytes, show (Encoded.from_bits bits t.serialize).tree
      = t.serialize from rfl, hser]
    rfl
  rw [henc]
  rw [show (some ((Encoded.from_bits bits t.serialize).to_bytes)).bind decode
    = decode ((Encoded.from_bits bits t.serialize).to_bytes) from rfl]
  rw [hout, decode_zero_count]

/-! ## Further helper lemmas -/

/-- `HuffmanTree::encode` on a successful code collection. -/
theorem tree_encode_some_of (t : HuffmanTree) (data : List Nat) (bits : List Bool)
    (hbits : collectBits t.build_map data = some bits) :
    t.encode data = some (Encoded.from_bits bits t.serialize) := by
  unfold HuffmanTree.encode
  rw [hbits]

/-- Top-level `encode` on a successful tree build and code collection. -/
theorem encode_some_of (data : List Nat) (t : HuffmanTree) (bits : List Bool)
    (ht : HuffmanTree.from_sorted (count_frequencies data) = some t)
    (hbits : collectBits t.build_map data = some bits) :
    encode data = some (Encoded.from_bits bits t.serialize).to_bytes := by
  unfold encode
  rw [ht]
  show (match t.encode data with
    | none => none
    | some e => some e.to_bytes)
      = some (Encoded.from_bits bits t.serialize).to_bytes
  rw [tree_encode_some_of t data bits hbits]

theorem getD_replicate_false (n m : Nat) :
    (List.replicate n (false : Bool)).getD m false = false := by
  by_cases h : m < n
  · rw [List.getD_eq_getElem _ _ (by simpa using h)]
    simp
  · rw [List.getD_eq_default _ _ (by simpa using h)]

/-! ## Claim theorems -/

/-- C1 (counterexample): the round trip as claimed — for every non-empty
buffer with at least 2 distinct byte values — fails at a buffer containing
all 256 byte values: the leaf-count byte wraps to 0 and decoding panics
while rebuilding the tree from no leaves. -/
theorem roundtrip_fails_on_256_distinct_values :
    (encode (List.range 256)).bind decode ≠ some (List.range 256) := by
  have h := roundtrip_256 (List.range 256)
    (by rw [(List.nodup_range 256).dedup]; exact List.length_range 256)
  rw [h]
  simp

/-- C1 (amended): for every non-empty buffer with at least 2 and at most 255
distinct byte values, decoding the encoded container returns the original
buffer. -/
theorem roundtrip_nonempty_two_to_255_distinct (data : List Nat)
    (hne : data ≠ []) (h2 : 2 ≤ data.dedup.length)
    (h255 : data.dedup.length ≤ 255) :
    ∃ out, encode data = some out ∧ decode out = some data :=
  roundtrip_aux data h2 h255

/-- C1 witness at the buffer `[1, 2, 1]`. -/
theorem roundtrip_nonempty_two_to_255_distinct_witness :
    ([1, 2, 1] : List Nat) ≠ [] ∧ 2 ≤ ([1, 2, 1] : List Nat).dedup.length ∧
    ([1, 2, 1] : List Nat).dedup.length ≤ 255 ∧
    ∃ out, encode [1, 2, 1] = some out ∧ decode out = some [1, 2, 1] :=
  ⟨by decide, by decide, by decide,
    roundtrip_nonempty_two_to_255_distinct [1, 2, 1] (by decide) (by decide)
      (by decide)⟩

/-- C2 (evaluation at the failing input `"aaaa"`): the rank order of a
single-distinct-symbol buffer has one entry, `from_sorted` on it panics
(out-of-bounds index on the empty tail, modelled as `none`), and `encode`
therefore dies instead of returning an `InsufficientSymbols` error — no such
error value exists in the code. -/
theorem encode_single_symbol_buffer_panics :
    count_frequencies [97, 97, 97, 97] = [97]
      ∧ HuffmanTree.from_sorted [97] = none
      ∧ encode [97, 97, 97, 97] = none := by
  have hcf : count_frequencies [97, 97, 97, 97] = [97] := by
    rw [count_frequencies, show [97, 97, 97, 97].dedup = [97] by decide]
    exact List.mergeSort_singleton 97
  refine ⟨hcf, rfl, ?_⟩
  unfold encode
  rw [hcf, from_sorted_single]

/-- C3 (evaluation at the failing input `[]`): on the empty buffer the
frequency-ranking stage returns the empty rank order — a value, not an
`EmptyInput` error — and `encode` then panics in `from_sorted` (modelled as
`none`). -/
theorem encode_empty_buffer_returns_value_then_panics :
    count_frequencies [] = [] ∧ encode [] = none := by
  have hcf : count_frequencies ([] : List Nat) = [] := by
    rw [count_frequencies]
    simp
  refine ⟨hcf, ?_⟩
  unfold encode
  rw [hcf, from_sorted_nil]

/-- C4 (evaluation at the failing input `[0, 5]`): when `2 + symbolCount`
exceeds the buffer length, container parsing panics on the slice
`data[1..2 + symbolCount]` (modelled as `none`) instead of returning a
`MalformedContainer` error — no such error value exists in the code. -/
theorem from_bytes_oversized_count_panics :
    Encoded.from_bytes [0, 5] = none ∧ decode [0, 5] = none :=
  ⟨rfl, rfl⟩

/-- C5 (evaluation at the failing input `[6, 3, 0, 1, 2, 64]`, a container
with padding 6, symbols `0, 1, 2` and the two packed bits `01`): the walk
emits `0`, then descends on the final `1` bit and exhausts `totalBits`
mid-codeword, yet decode silently returns the truncated output `[0]` rather
than a `TruncatedBitstream` error. -/
theorem decode_truncated_bitstream_returns_output :
    decode [6, 3, 0, 1, 2, 64] = some [0] := by decide

/-- C6: in the code table of a chain tree built from `n ≥ 2` ranked symbols,
the `k`-th ranked symbol (1-indexed) gets a codeword of length `k` for
`k = 1 .. n−2`, and the symbols of ranks `n−1` and `n` both get codewords of
length `n−1` that differ only in their final bit. -/
theorem chain_code_lengths (l : List Nat) (t : HuffmanTree)
    (hnd : l.Nodup) (h2 : 2 ≤ l.length)
    (ht : HuffmanTree.from_sorted l = some t) :
    (∀ k, 1 ≤ k → k ≤ l.length - 2 →
      ∃ c, (t.build_map).lookup (l.getD (k - 1) 0) = some c ∧ c.length = k)
    ∧ (∃ c₁ c₂,
        (t.build_map).lookup (l.getD (l.length - 2) 0) = some c₁
        ∧ (t.build_map).lookup (l.getD (l.length - 1) 0) = some c₂
        ∧ c₁.length = l.length - 1 ∧ c₂.length = l.length - 1
        ∧ c₁.dropLast = c₂.dropLast ∧ c₁.getLast? ≠ c₂.getLast?) := by
  constructor
  · intro k hk1 hk2
    refine ⟨_, lookup_build_map_idx l t (k - 1) hnd ht (by omega), ?_⟩
    simp
    omega
  · refine ⟨_, _, lookup_build_map_idx l t (l.length - 2) hnd ht (by omega),
      lookup_build_map_last l t hnd ht, ?_, ?_, ?_, ?_⟩
    · simp
      omega
    · simp
    · rw [List.dropLast_concat,
        show l.length - 1 = (l.length - 2) + 1 by omega,
        List.replicate_succ', List.dropLast_concat]
    · rw [List.getLast?_concat,
        show l.length - 1 = (l.length - 2) + 1 by omega,
        List.replicate_succ', List.getLast?_concat]
      simp

/-- C6 witness at the rank order `[5, 7, 9]`. -/
theorem chain_code_lengths_witness :
    (∀ k, 1 ≤ k → k ≤ ([5, 7, 9] : List Nat).length - 2 →
      ∃ c, ((HuffmanTree.mk 5 (Node.Tree (HuffmanTree.mk 7 (Node.Leaf 9)))).build_map).lookup
          (([5, 7, 9] : List Nat).getD (k - 1) 0) = some c ∧ c.length = k)
    ∧ (∃ c₁ c₂,
        ((HuffmanTree.mk 5 (Node.Tree (HuffmanTree.mk 7 (Node.Leaf 9)))).build_map).lookup
          (([5, 7, 9] : List Nat).getD (([5, 7, 9] : List Nat).length - 2) 0) = some c₁
        ∧ ((HuffmanTree.mk 5 (Node.Tree (HuffmanTree.mk 7 (Node.Leaf 9)))).build_map).lookup
          (([5, 7, 9] : List Nat).getD (([5, 7, 9] : List Nat).length - 1) 0) = some c₂
        ∧ c₁.length = ([5, 7, 9] : List Nat).length - 1
        ∧ c₂.length = ([5, 7, 9] : List Nat).length - 1
        ∧ c₁.dropLast = c₂.dropLast ∧ c₁.getLast? ≠ c₂.getLast?) :=
  chain_code_lengths [5, 7, 9]
    (HuffmanTree.mk 5 (Node.Tree (HuffmanTree.mk 7 (Node.Leaf 9))))
    (by decide) (by decide) rfl

/-- C7: bit packing groups the bits into bytes of 8 MSB-first, zero-fills a
short final chunk (padding bits come after the data bits, never interleaved,
and are zero), and `padding = (8 − len(bits) mod 8) mod 8`. -/
theorem pack_msb_first_zero_padding (bits : List Bool) (tr : List Nat) :
    (Encoded.from_bits bits tr).padding = (8 - bits.length % 8) % 8
    ∧ 8 * (Encoded.from_bits bits tr).bytes.length
        = bits.length + (Encoded.from_bits bits tr).padding
    ∧ ∀ i, i < 8 * (Encoded.from_bits bits tr).bytes.length →
        Encoded.bitAt (Encoded.from_bits bits tr).bytes i
          = (bits ++ List.replicate (Encoded.from_bits bits tr).padding false).getD
              i false := by
  refine ⟨?_, pack_total_bits bits tr, ?_⟩
  · rw [Encoded.from_bits]
    by_cases h : bits.length % 8 = 0 <;> simp [h] <;> omega
  · intro i hi
    have hbytes : (Encoded.from_bits bits tr).bytes
        = (chunks8 bits).map (bitsToByte 0) := rfl
    have htot := pack_total_bits bits tr
    have hlen : ((chunks8 bits).map (bitsToByte 0)).length
        = (chunks8 bits).length := List.length_map _ _
    rw [hbytes] at hi ⊢
    rw [bitAt_pack bits i (by omega)]
    by_cases hib : i < bits.length
    · rw [List.getD_append _ _ _ _ hib]
    · rw [List.getD_eq_default _ _ (by omega),
        List.getD_append_right _ _ _ _ (by omega), getD_replicate_false]

/-- C7 witness at the bit sequence `[1, 0, 1]`. -/
theorem pack_msb_first_zero_padding_witness :
    (Encoded.from_bits [true, false, true] []).padding
        = (8 - [true, false, true].length % 8) % 8
    ∧ 8 * (Encoded.from_bits [true, false, true] []).bytes.length
        = [true, false, true].length + (Encoded.from_bits [true, false, true] []).padding
    ∧ ∀ i, i < 8 * (Encoded.from_bits [true, false, true] []).bytes.length →
        Encoded.bitAt (Encoded.from_bits [true, false, true] []).bytes i
          = ([true, false, true]
              ++ List.replicate (Encoded.from_bits [true, false, true] []).padding
                  false).getD i false :=
  pack_msb_first_zero_padding [true, false, true] []

/-- C8 (counterexample): the container round trip fails for a genuine
serialized tree with 256 leaves — its count byte is 0, so parsing puts the
symbol list in the packed-data region and the triple changes. -/
theorem container_roundtrip_fails_on_256_leaf_tree :
    Encoded.from_bytes (Encoded.to_bytes
        ⟨((HuffmanTree.from_sorted (List.range 256)).getD
            (HuffmanTree.mk 0 (Node.Leaf 0))).serialize, [], 0⟩)
      ≠ some ⟨((HuffmanTree.from_sorted (List.range 256)).getD
            (HuffmanTree.mk 0 (Node.Leaf 0))).serialize, [], 0⟩ := by
  obtain ⟨t, ht, hcl⟩ := from_sorted_some (List.range 256) (by simp)
  rw [ht, Option.getD_some]
  have hser : t.serialize = 0 :: List.range 256 := by
    rw [HuffmanTree.serialize, hcl]
    simp
  rw [hser]
  have hdata : Encoded.to_bytes ⟨0 :: List.range 256, [], 0⟩
      = 0 :: 0 :: List.range 256 := by
    rw [Encoded.to_bytes]
    simp
  rw [hdata, from_bytes_zero]
  intro hcontra
  rw [Option.some.injEq, Encoded.mk.injEq] at hcontra
  have hlen := congrArg List.length hcontra.1
  simp at hlen

/-- C8 (amended): parsing inverts container assembly exactly whenever the
serialized-tree sequence starts with a count byte equal to the number of
symbol bytes after it — as is the case for every serialized tree with at
most 255 leaves. -/
theorem container_roundtrip_count_consistent (p : Nat) (syms packed : List Nat) :
    Encoded.from_bytes (Encoded.to_bytes ⟨syms.length :: syms, packed, p⟩)
      = some ⟨syms.length :: syms, packed, p⟩ :=
  from_bytes_to_bytes p syms packed

/-- C9: for a buffer with at least 2 distinct byte values, every byte of the
buffer has a code in the table derived from the tree built from that same
buffer, so the `expect("byte not in tree")` branch is unreachable. -/
theorem every_input_byte_has_code (data : List Nat)
    (h2 : 2 ≤ data.dedup.length) :
    ∃ t, HuffmanTree.from_sorted (count_frequencies data) = some t
      ∧ (∀ b ∈ data, (((t.build_map).lookup b).isSome : Bool))
      ∧ t.encode data ≠ none ∧ encode data ≠ none := by
  have hlen : (count_frequencies data).length = data.dedup.length :=
    count_frequencies_length data
  obtain ⟨t, ht, hcl⟩ := from_sorted_some (count_frequencies data) (by omega)
  have hmem : ∀ b ∈ data, (((t.build_map).lookup b).isSome : Bool) := by
    intro b hb
    exact lookup_build_map_isSome t b (hcl ▸ mem_count_frequencies hb)
  obtain ⟨bits, hbits⟩ := collectBits_exists t.build_map data hmem
  refine ⟨t, ht, hmem, ?_, ?_⟩
  · rw [tree_encode_some_of t data bits hbits]
    simp
  · rw [encode_some_of data t bits ht hbits]
    simp

/-- C9 witness at the buffer `[1, 2, 1]`. -/
theorem every_input_byte_has_code_witness :
    2 ≤ ([1, 2, 1] : List Nat).dedup.length ∧
    ∃ t, HuffmanTree.from_sorted (count_frequencies [1, 2, 1]) = some t
      ∧ (∀ b ∈ ([1, 2, 1] : List Nat), (((t.build_map).lookup b).isSome : Bool))
      ∧ t.encode [1, 2, 1] ≠ none ∧ encode [1, 2, 1] ≠ none :=
  ⟨by decide, every_input_byte_has_code [1, 2, 1] (by decide)⟩

/-- C10: the leaf-count byte of tree serialization is the leaf count modulo
256; it equals the true count exactly when that count is at most 255; and
for a tree with exactly 256 leaves the count byte is 0, so container parsing
assigns the whole symbol list to the packed-data region. -/
theorem serialize_count_byte_mod_256 (t : HuffmanTree) :
    t.serialize = (t.collect_leaves.length % 256) :: t.collect_leaves
    ∧ ((t.serialize).headD 0 = t.collect_leaves.length
        ↔ t.collect_leaves.length ≤ 255)
    ∧ (∀ packed padding, t.collect_leaves.length = 256 →
        Encoded.from_bytes (Encoded.to_bytes ⟨t.serialize, packed, padding⟩)
          = some ⟨[0], t.collect_leaves ++ packed, padding⟩) := by
  refine ⟨rfl, ?_, ?_⟩
  · rw [HuffmanTree.serialize]
    simp only [List.headD_cons]
    constructor
    · intro h
      omega
    · intro h
      exact Nat.mod_eq_of_lt (by omega)
  · intro packed padding h
    have hdata : Encoded.to_bytes ⟨t.serialize, packed, padding⟩
        = padding :: 0 :: (t.collect_leaves ++ packed) := by
      rw [Encoded.to_bytes, HuffmanTree.serialize, h]
      rfl
    rw [hdata, from_bytes_zero]

/-- C10 witness at the chain tree over all 256 byte values. -/
theorem serialize_count_byte_mod_256_witness :
    Encoded.from_bytes (Encoded.to_bytes
        ⟨((HuffmanTree.from_sorted (List.range 256)).getD
            (HuffmanTree.mk 0 (Node.Leaf 0))).serialize, [7], 3⟩)
      = some ⟨[0], ((HuffmanTree.from_sorted (List.range 256)).getD
            (HuffmanTree.mk 0 (Node.Leaf 0))).collect_leaves ++ [7], 3⟩ := by
  obtain ⟨t, ht, hcl⟩ := from_sorted_some (List.range 256) (by simp)
  rw [ht, Option.getD_some]
  exact (serialize_count_byte_mod_256 t).2.2 [7] 3 (by rw [hcl]; simp)

end Compression
